import Mathlib

/-!
Shallow embedding of `src/anom_detect.py` (class `AnomDetect`): the
Frequent-Directions sketch initializer (`__init__`), the anomaly scorer and
partitioner (`detect`), and the sketch refresher (`sketch_update`), together
with proofs about the behaviour the specification ascribes to them.

Numerical arrays are modelled over `ℝ` (or over an arbitrary linear ordered
field where only comparisons and `int(n * p)` matter, so that concrete
evaluations can run on `ℚ`).  The external SVD provider (`numpy.linalg.svd`)
is not code of this repository; operations consuming an SVD take the factors
as arguments and theorems assume the provider's contract (`svdValid`).
`numpy` float behaviour that has no real-number counterpart (an `IndexError`
on an empty array, a `NaN` from the square root of a negative number) is
modelled with `Option`: `none` means the operation failed or produced an
invalid value.
-/

/-- The two criterion modes the partition step of `detect` recognises:
`'p'` (percentage) and `'th'` (threshold), lines 67 and 74. -/
inductive Crit
  | p
  | th
deriving DecidableEq

/-- Python `int(x)` applied to a real quantity: truncation toward zero
(line 71, `n_anomaly = int(n * p)`). -/
def intTrunc {α : Type*} [LinearOrderedField α] [FloorRing α] (x : α) : ℤ :=
if 0 ≤ x then ⌊x⌋ else ⌈x⌉

/-- The comparison realised by a stable ascending argsort of a score array:
pairs `(original index, score)` are ordered by score, with ties kept in
original index order. -/
def ascPairRel {α : Type*} [LinearOrder α] (p q : ℕ × α) : Prop :=
p.2 < q.2 ∨ (p.2 = q.2 ∧ p.1 ≤ q.1)

instance {α : Type*} [LinearOrder α] : DecidableRel (ascPairRel (α := α)) :=
fun p q => inferInstanceAs (Decidable (p.2 < q.2 ∨ (p.2 = q.2 ∧ p.1 ≤ q.1)))

instance {α : Type*} [LinearOrder α] : IsTotal (ℕ × α) ascPairRel :=
⟨fun p q => by
  rcases lt_trichotomy p.2 q.2 with h | h | h
  · exact Or.inl (Or.inl h)
  · rcases le_total p.1 q.1 with h1 | h1
    · exact Or.inl (Or.inr ⟨h, h1⟩)
    · exact Or.inr (Or.inr ⟨h.symm, h1⟩)
  · exact Or.inr (Or.inl h)⟩

instance {α : Type*} [LinearOrder α] : IsTrans (ℕ × α) ascPairRel :=
⟨by
  rintro p q r (h | ⟨he, hi⟩) (h2 | ⟨he2, hi2⟩)
  · exact Or.inl (h.trans h2)
  · exact Or.inl (h.trans_eq he2)
  · exact Or.inl (he.trans_lt h2)
  · exact Or.inr ⟨he.trans he2, hi.trans hi2⟩⟩

/-- `np.argsort(scores)` with the values kept alongside, modelled as a sort
of the `(index, score)` pairs of the score array.  `np.argsort`'s default
`kind='quicksort'` leaves the order of EQUAL scores unspecified, so the
embedding determinises it (as the stable sort numpy's small-array
insertion-sort base case realises); theorems about the program only use
properties shared by every correct argsort output — sortedness by score and
being a permutation of the indices — except the concrete two-element run in
`percentage_tiebreak_cex`, where numpy's base-case behaviour is exact. -/
def sortedPairs {α : Type*} [LinearOrder α] (s : List α) : List (ℕ × α) :=
s.enum.insertionSort ascPairRel

/-- Line 70, `sorted_idx = np.argsort(scores)[::-1]`: index list sorted by
score descending, obtained by reversing the stable ascending argsort. -/
def sortedIdx {α : Type*} [LinearOrder α] (s : List α) : List ℕ :=
((sortedPairs s).map Prod.fst).reverse

/-- The anomaly index list computed by `AnomDetect.detect` from the score
array `s` (lines 67-78). -/
def anomalyIdx {α : Type*} [LinearOrderedField α] [FloorRing α]
    (c : Crit) (v : α) (s : List α) : List ℕ :=
match c with
| Crit.p => (sortedIdx s).take (intTrunc ((s.length : α) * v)).toNat
| Crit.th => (List.range s.length).filter fun i => decide (v < s.getD i 0)

/-- The non-anomaly index list computed by `AnomDetect.detect` from the score
array `s` (lines 67-78). -/
def nonAnomalyIdx {α : Type*} [LinearOrderedField α] [FloorRing α]
    (c : Crit) (v : α) (s : List α) : List ℕ :=
match c with
| Crit.p => (sortedIdx s).drop (intTrunc ((s.length : α) * v)).toNat
| Crit.th => (List.range s.length).filter fun i => decide (s.getD i 0 ≤ v)

/-- Strict descending order on `(index, score)` pairs in which ties rank the
larger original index first: the order realised by the embedding's
determinisation of the reversed argsort (and by numpy's small-array base
case); the source does not guarantee this tie order for general arrays. -/
def descPairRel {α : Type*} [LinearOrder α] (p q : ℕ × α) : Prop :=
q.2 < p.2 ∨ (p.2 = q.2 ∧ q.1 < p.1)

/-- `numpy.linalg.norm(v, ord=2)`: the Euclidean norm of a vector. -/
noncomputable def norm2 {m : ℕ} (v : Fin m → ℝ) : ℝ :=
Real.sqrt (∑ i, v i ^ 2)

/-- Line 63: the anomaly score exactly as the code computes it,
`‖(I - U·Uᵀ)·y‖₂`. -/
noncomputable def scoreCode {m ell : ℕ} (U : Matrix (Fin m) (Fin ell) ℝ)
    (y : Fin m → ℝ) : ℝ :=
norm2 ((1 - U * U.transpose).mulVec y)

/-- Modelled from the spec (section 4.2 step 1): the score as the residual of
`y` after removing its projection onto the span of `U`'s columns,
`‖y - U·(Uᵀ·y)‖₂`. -/
noncomputable def scoreSpec {m ell : ℕ} (U : Matrix (Fin m) (Fin ell) ℝ)
    (y : Fin m → ℝ) : ℝ :=
norm2 (y - U.mulVec (U.transpose.mulVec y))

/-- Lines 52-64: the score array `detect` builds by looping over the columns
of `Y` in order and appending one score per column. -/
noncomputable def scoresList {m ell n : ℕ} (U : Matrix (Fin m) (Fin ell) ℝ)
    (Y : Matrix (Fin m) (Fin n) ℝ) : List ℝ :=
(List.finRange n).map fun j => scoreCode U fun i => Y i j

/-- `np.sqrt` on one float: produces `NaN` (modelled `none`) on a negative
argument. -/
noncomputable def npSqrt (t : ℝ) : Option ℝ :=
if 0 ≤ t then some (Real.sqrt t) else none

/-- `np.sqrt` applied elementwise to an array, failing (`none`) as soon as
one entry would be `NaN`. -/
noncomputable def npSqrtList : List ℝ → Option (List ℝ)
  | [] => some []
  | t :: l => (npSqrt t).bind fun r => (npSqrtList l).map fun rs => r :: rs

/-- Lines 38-39 and 105-106: `delta = s[-1] ** 2; s = np.sqrt(s ** 2 - delta)`.
There is NO `max(·, 0)` clamp in the code.  `none` models the `IndexError`
raised by `s[-1]` on an empty array, or a `NaN` from a negative radicand. -/
noncomputable def shrink (s : List ℝ) : Option (List ℝ) :=
s.getLast?.bind fun last => npSqrtList (s.map fun x => x ^ 2 - last ^ 2)

/-- Modelled from the spec (section 4.1 step 3): the shrink formula the spec
states, `s_i ← sqrt(max(s_i² - delta, 0))`, WITH the clamp. -/
noncomputable def shrinkClamped (s : List ℝ) : List ℝ :=
s.map fun x => Real.sqrt (max (x ^ 2 - (s.getLast?.getD 0) ^ 2) 0)

/-- `U[:, :ell]`: the first `ell` columns of a matrix (numpy slicing clamps
at the actual column count, hence `min ell k`). -/
def truncCols {m k : ℕ} (U : Matrix (Fin m) (Fin k) ℝ) (ell : ℕ) :
    Matrix (Fin m) (Fin (min ell k)) ℝ :=
fun i j => U i (Fin.castLE (min_le_right ell k) j)

/-- The mutable state `(self.U, self.B)` of an `AnomDetect` object. -/
structure Sketch (m ell : ℕ) where
  U : Matrix (Fin m) (Fin ell) ℝ
  B : Matrix (Fin m) (Fin ell) ℝ

/-- The truncate-and-shrink pass shared verbatim by `__init__` (lines 32-42)
and `sketch_update` (lines 97-110): given the factors `U, s` returned by the
external SVD provider, truncate both to `ell`, shrink the singular values,
and store `U` and `B = U·diag(s)`. -/
noncomputable def sketchOfSVD {m k : ℕ} (U : Matrix (Fin m) (Fin k) ℝ)
    (s : List ℝ) (ell : ℕ) : Option (Sketch m (min ell k)) :=
(shrink (s.take ell)).map fun sh =>
  ⟨truncCols U ell,
    truncCols U ell * Matrix.diagonal fun j : Fin (min ell k) => sh.getD (j : ℕ) 0⟩

/-- Lines 27-29: `if ell < 1: self.ell = int(np.sqrt(self.m)); else: self.ell
= ell`.  Note `int(np.sqrt(m))` truncates, i.e. is `Nat.sqrt m`. -/
def effEll (ell : ℤ) (m : ℕ) : ℕ :=
if ell < 1 then Nat.sqrt m else ell.toNat

/-- The full constructed `AnomDetect` object: the criterion configuration is
stored as given, with no validation whatsoever. -/
structure Detector (m ell : ℕ) where
  criterion : String
  criterion_v : ℝ
  sk : Sketch m ell

/-- `AnomDetect.__init__` (lines 13-42), taking the factors `U, s` returned
by `ln.svd(Y0, full_matrices=False)` as arguments: stores the criterion
string and value unexamined, resolves `ell`, and runs the truncate-and-shrink
pass.  The only failure (`none`) is the `IndexError` from `s[-1]` when the
singular value list is empty. -/
noncomputable def initDetect {m k : ℕ} (U : Matrix (Fin m) (Fin k) ℝ)
    (s : List ℝ) (criterion : String) (criterion_v : ℝ) (ell : ℤ) :
    Option (Detector m (min (effEll ell m) k)) :=
(sketchOfSVD U s (effEll ell m)).map fun sk => ⟨criterion, criterion_v, sk⟩

/-- `np.hstack((B, Y))`: horizontal concatenation (line 95). -/
def hstack {m a b : ℕ} (A : Matrix (Fin m) (Fin a) ℝ)
    (C : Matrix (Fin m) (Fin b) ℝ) : Matrix (Fin m) (Fin (a + b)) ℝ :=
fun i j => if h : (j : ℕ) < a then A i ⟨j, h⟩ else C i ⟨(j : ℕ) - a, by omega⟩

/-- `AnomDetect.sketch_update` (lines 85-110): form `D = hstack(B, Y)`, ask
the external provider `svd` for its left factor and singular values, and run
the same truncate-and-shrink pass as `__init__`. -/
noncomputable def sketchUpdate {m ell n k : ℕ} (sk : Sketch m ell)
    (Y : Matrix (Fin m) (Fin n) ℝ)
    (svd : Matrix (Fin m) (Fin (ell + n)) ℝ → Matrix (Fin m) (Fin k) ℝ × List ℝ) :
    Option (Sketch m (min ell k)) :=
sketchOfSVD (svd (hstack sk.B Y)).1 (svd (hstack sk.B Y)).2 ell

/-- The contract of the external SVD provider (economy form): `A = U·S·Vᵀ`
with orthonormal columns in `U` and `V` and the singular values nonnegative,
in descending order, `min(m, p)` of them. -/
def svdValid {m p k : ℕ} (A : Matrix (Fin m) (Fin p) ℝ)
    (U : Matrix (Fin m) (Fin k) ℝ) (s : List ℝ) (V : Matrix (Fin p) (Fin k) ℝ) :
    Prop :=
A = U * Matrix.diagonal (fun j : Fin k => s.getD j 0) * V.transpose ∧
  U.transpose * U = 1 ∧ V.transpose * V = 1 ∧
  s.Pairwise (· ≥ ·) ∧ (∀ x ∈ s, 0 ≤ x) ∧ s.length = k ∧ k = min m p

/- ### helper lemmas about the partition step -/

theorem sortedPairs_perm_enum {α : Type*} [LinearOrder α] (s : List α) :
    (sortedPairs s).Perm s.enum :=
List.perm_insertionSort _ _

theorem sortedIdx_perm_range {α : Type*} [LinearOrder α] (s : List α) :
    (sortedIdx s).Perm (List.range s.length) := by
  unfold sortedIdx
  refine (List.reverse_perm _).trans ?_
  have h := (sortedPairs_perm_enum s).map Prod.fst
  rwa [List.enum_map_fst] at h

theorem sortedIdx_nodup {α : Type*} [LinearOrder α] (s : List α) :
    (sortedIdx s).Nodup :=
(sortedIdx_perm_range s).symm.nodup (List.nodup_range _)

theorem sortedIdx_length {α : Type*} [LinearOrder α] (s : List α) :
    (sortedIdx s).length = s.length :=
(sortedIdx_perm_range s).length_eq.trans (List.length_range _)

/-- Claim C2: for every score array and both criterion modes, the two index
lists `detect` returns are disjoint and together are a permutation of
`{0, …, n-1}`, so their lengths add up to `n`. -/
theorem anomaly_partition_disjoint_cover {α : Type*} [LinearOrderedField α] [FloorRing α]
    (c : Crit) (v : α) (s : List α) :
    (anomalyIdx c v s).Disjoint (nonAnomalyIdx c v s) ∧
      (anomalyIdx c v s ++ nonAnomalyIdx c v s).Perm (List.range s.length) ∧
      (anomalyIdx c v s).length + (nonAnomalyIdx c v s).length = s.length := by
  cases c with
  | p =>
    have hperm : (anomalyIdx Crit.p v s ++ nonAnomalyIdx Crit.p v s).Perm
        (List.range s.length) := by
      simp only [anomalyIdx, nonAnomalyIdx, List.take_append_drop]
      exact sortedIdx_perm_range s
    refine ⟨?_, hperm, ?_⟩
    · simpa only [anomalyIdx, nonAnomalyIdx] using
        List.disjoint_take_drop (sortedIdx_nodup s) le_rfl
    · have := hperm.length_eq
      simpa [List.length_append] using this
  | th =>
    have hfe : (List.range s.length).filter (fun i => decide (s.getD i 0 ≤ v)) =
        (List.range s.length).filter (fun i => !(decide (v < s.getD i 0))) := by
      refine List.filter_congr ?_
      intro i _
      simp [← decide_not, not_lt]
    have hperm : (anomalyIdx Crit.th v s ++ nonAnomalyIdx Crit.th v s).Perm
        (List.range s.length) := by
      simp only [anomalyIdx, nonAnomalyIdx, hfe]
      exact List.filter_append_perm _ _
    refine ⟨?_, hperm, ?_⟩
    · intro i hi hj
      simp only [anomalyIdx, List.mem_filter, decide_eq_true_eq] at hi
      simp only [nonAnomalyIdx, List.mem_filter, decide_eq_true_eq] at hj
      exact absurd hi.2 (not_lt.mpr hj.2)
    · have := hperm.length_eq
      simpa [List.length_append] using this

/-- Claim C3: in threshold mode, an index is in the anomalous list iff its
score is strictly greater than the configured threshold; a score exactly
equal to the threshold lands in the non-anomalous list. -/
theorem threshold_partition_iff {α : Type*} [LinearOrderedField α] [FloorRing α]
    (v : α) (s : List α) (i : ℕ) :
    (i ∈ anomalyIdx Crit.th v s ↔ i < s.length ∧ v < s.getD i 0) ∧
      (i ∈ nonAnomalyIdx Crit.th v s ↔ i < s.length ∧ s.getD i 0 ≤ v) := by
  constructor <;>
    simp [anomalyIdx, nonAnomalyIdx, List.mem_filter, List.mem_range]

theorem sortedPairs_sorted {α : Type*} [LinearOrder α] (s : List α) :
    List.Sorted ascPairRel (sortedPairs s) :=
List.sorted_insertionSort _ _

theorem sortedPairs_fst_ne {α : Type*} [LinearOrder α] (s : List α) :
    List.Pairwise (fun p q : ℕ × α => p.1 ≠ q.1) (sortedPairs s) := by
  have h1 : List.Pairwise (fun p q : ℕ × α => p.1 ≠ q.1) s.enum :=
    List.pairwise_map.1 (List.nodup_enum_map_fst s)
  exact ((sortedPairs_perm_enum s).pairwise_iff fun h => h.symm).2 h1

/-- In the embedding's determinisation, the reversed argsort is strictly
descending in score with the LARGER original index first among equal scores.
(A property of the model; the program itself only guarantees the weaker
score-level sortedness derived from it below.) -/
theorem sortedPairs_reverse_pairwise {α : Type*} [LinearOrder α] (s : List α) :
    List.Pairwise descPairRel (sortedPairs s).reverse := by
  rw [List.pairwise_reverse]
  have h := List.Pairwise.and (sortedPairs_sorted s) (sortedPairs_fst_ne s)
  refine h.imp ?_
  rintro p q ⟨hasc, hne⟩
  rcases hasc with h2 | ⟨he, hi⟩
  · exact Or.inl h2
  · exact Or.inr ⟨he.symm, lt_of_le_of_ne hi hne⟩

/-- The value of every pair in the enumeration is the score at its index. -/
theorem snd_eq_getD_of_mem_enum {α : Type*} (d : α) {l : List α} {p : ℕ × α}
    (hp : p ∈ l.enum) : p.2 = l.getD p.1 d := by
  rcases List.mem_iff_getElem.1 hp with ⟨i, hi, hEq⟩
  have hlen : i < l.length := by rwa [List.enum_length] at hi
  rw [List.getElem_enum] at hEq
  subst hEq
  simp [List.getD, List.getElem?_eq_getElem hlen]

theorem snd_eq_getD_of_mem_sorted {α : Type*} [LinearOrder α] {s : List α}
    {p : ℕ × α} (hp : p ∈ (sortedPairs s).reverse) (d : α) :
    p.2 = s.getD p.1 d :=
snd_eq_getD_of_mem_enum d ((sortedPairs_perm_enum s).mem_iff.1 (List.mem_reverse.1 hp))

theorem sortedIdx_eq_map_fst_reverse {α : Type*} [LinearOrder α] (s : List α) :
    sortedIdx s = ((sortedPairs s).reverse).map Prod.fst := by
  unfold sortedIdx
  exact (List.map_reverse _ _).symm

/-- Score-level sortedness of the reversed argsort: weakly descending.  This
holds for EVERY correct argsort output, independently of how equal scores
are ordered. -/
theorem sortedPairs_reverse_value_pairwise {α : Type*} [LinearOrder α] (s : List α) :
    List.Pairwise (fun p q : ℕ × α => q.2 ≤ p.2) ((sortedPairs s).reverse) :=
(sortedPairs_reverse_pairwise s).imp (by
  rintro p q (h | ⟨he, _⟩)
  · exact h.le
  · exact he.symm.le)

/-- Claim C4 (amended): in percentage mode with `v ∈ [0, 1]`, exactly
`int(n·v)` indices (integer truncation of `n·v`) are classified anomalous,
namely ones carrying the highest scores: the descending argsort is weakly
descending in score and every anomalous index's score is at least every
non-anomalous index's score.  The order among EQUAL scores at the cutoff is
NOT guaranteed by the source — `np.argsort`'s default quicksort is
documented unstable — so no universal tie rule holds; where numpy's
small-array base case applies the ties come out in REVERSED original order
(see `percentage_tiebreak_cex`), refuting the claimed preserved order.  The
claim's concrete example with strictly distinct scores `[0.1, 5, 0.2, 4]`
and `v = 0.5` gives anomalous `[1, 3]` and non-anomalous `[2, 0]`. -/
theorem percentage_topk {α : Type*} [LinearOrderedField α] [FloorRing α]
    (v : α) (s : List α) (h0 : 0 ≤ v) (h1 : v ≤ 1) :
    (anomalyIdx Crit.p v s).length = (intTrunc ((s.length : α) * v)).toNat ∧
      List.Pairwise (fun i j => s.getD j 0 ≤ s.getD i 0) (sortedIdx s) ∧
      (∀ i ∈ anomalyIdx Crit.p v s, ∀ j ∈ nonAnomalyIdx Crit.p v s,
        s.getD j 0 ≤ s.getD i 0) ∧
      anomalyIdx Crit.p ((1 : ℚ)/2) [1/10, 5, 1/5, 4] = [1, 3] ∧
      nonAnomalyIdx Crit.p ((1 : ℚ)/2) [1/10, 5, 1/5, 4] = [2, 0] := by
  have hnv : (0 : α) ≤ (s.length : α) * v := mul_nonneg (Nat.cast_nonneg _) h0
  have hkn : (intTrunc ((s.length : α) * v)).toNat ≤ s.length := by
    rw [intTrunc, if_pos hnv, Int.toNat_le]
    calc ⌊(s.length : α) * v⌋ ≤ ⌊(s.length : α)⌋ :=
          Int.floor_le_floor (mul_le_of_le_one_right (Nat.cast_nonneg _) h1)
      _ = (s.length : ℤ) := Int.floor_natCast _
  refine ⟨?_, ?_, ?_, ?_, ?_⟩
  · simp [anomalyIdx, List.length_take, sortedIdx_length, min_eq_left hkn]
  · rw [sortedIdx_eq_map_fst_reverse, List.pairwise_map]
    refine (sortedPairs_reverse_value_pairwise s).imp_of_mem ?_
    intro p q hp hq h
    rw [snd_eq_getD_of_mem_sorted hp 0, snd_eq_getD_of_mem_sorted hq 0] at h
    exact h
  · intro i hi j hj
    set k := (intTrunc ((s.length : α) * v)).toNat with hk
    have hA : anomalyIdx Crit.p v s =
        (((sortedPairs s).reverse).take k).map Prod.fst := by
      show (sortedIdx s).take k = _
      rw [sortedIdx_eq_map_fst_reverse, ← List.map_take]
    have hN : nonAnomalyIdx Crit.p v s =
        (((sortedPairs s).reverse).drop k).map Prod.fst := by
      show (sortedIdx s).drop k = _
      rw [sortedIdx_eq_map_fst_reverse, ← List.map_drop]
    rw [hA] at hi
    rw [hN] at hj
    rcases List.mem_map.1 hi with ⟨p, hpt, rfl⟩
    rcases List.mem_map.1 hj with ⟨q, hqd, rfl⟩
    have hsplit : List.Pairwise (fun p q : ℕ × α => q.2 ≤ p.2)
        (((sortedPairs s).reverse).take k ++ ((sortedPairs s).reverse).drop k) := by
      rw [List.take_append_drop]
      exact sortedPairs_reverse_value_pairwise s
    have h := (List.pairwise_append.1 hsplit).2.2 p hpt q hqd
    rw [snd_eq_getD_of_mem_sorted (List.mem_of_mem_take hpt) 0,
      snd_eq_getD_of_mem_sorted (List.mem_of_mem_drop hqd) 0] at h
    exact h
  · norm_num [anomalyIdx, intTrunc, sortedIdx, sortedPairs, ascPairRel,
      List.enum, List.enumFrom]
    decide
  · norm_num [nonAnomalyIdx, intTrunc, sortedIdx, sortedPairs, ascPairRel,
      List.enum, List.enumFrom]
    decide

/-- Witness for `percentage_topk` at the spec's concrete scenario. -/
theorem percentage_topk_witness :
    (0 ≤ (1 : ℚ)/2 ∧ (1 : ℚ)/2 ≤ 1) ∧
      anomalyIdx Crit.p ((1 : ℚ)/2) [1/10, 5, 1/5, 4] = [1, 3] ∧
      nonAnomalyIdx Crit.p ((1 : ℚ)/2) [1/10, 5, 1/5, 4] = [2, 0] :=
⟨⟨by norm_num, by norm_num⟩,
  (percentage_topk ((1 : ℚ)/2) [1/10, 5, 1/5, 4] (by norm_num) (by norm_num)).2.2.2.1,
  (percentage_topk ((1 : ℚ)/2) [1/10, 5, 1/5, 4] (by norm_num) (by norm_num)).2.2.2.2⟩

/-- Counterexample to claim C4 as stated: with two EQUAL scores `[1, 1]` and
`v = 0.5` the single anomalous index is `1`, not `0` — at a two-element
array `np.argsort` runs its stable insertion-sort base case, so this is the
source's concrete behaviour, and the original index order among equal scores
is reversed at the cutoff, not preserved. -/
theorem percentage_tiebreak_cex :
    anomalyIdx Crit.p ((1 : ℚ)/2) [1, 1] = [1] ∧
      (0 : ℕ) ∉ anomalyIdx Crit.p ((1 : ℚ)/2) [1, 1] := by
  have h : anomalyIdx Crit.p ((1 : ℚ)/2) [1, 1] = [1] := by
    norm_num [anomalyIdx, intTrunc, sortedIdx, sortedPairs, ascPairRel,
      List.enum, List.enumFrom]
  exact ⟨h, by rw [h]; simp⟩

/- ### the scoring step -/

theorem scoreCode_eq_scoreSpec {m ell : ℕ} (U : Matrix (Fin m) (Fin ell) ℝ)
    (y : Fin m → ℝ) : scoreCode U y = scoreSpec U y := by
  unfold scoreCode scoreSpec
  rw [Matrix.sub_mulVec, Matrix.one_mulVec, Matrix.mulVec_mulVec]

/-- Claim C1: the score `detect` assigns to each column `y` of the batch,
computed as `‖(I - U·Uᵀ)·y‖₂`, equals the Euclidean norm of the residual
`y - U·(Uᵀ·y)`, with one score per column in original column order. -/
theorem detect_scores_residual {m ell n : ℕ} (U : Matrix (Fin m) (Fin ell) ℝ)
    (Y : Matrix (Fin m) (Fin n) ℝ) :
    scoresList U Y = (List.finRange n).map fun j => scoreSpec U fun i => Y i j := by
  unfold scoresList
  exact List.map_congr_left fun j _ => scoreCode_eq_scoreSpec U _

/- ### the shrink step -/

theorem npSqrtList_of_nonneg : ∀ (l : List ℝ), (∀ t ∈ l, 0 ≤ t) →
    npSqrtList l = some (l.map Real.sqrt)
  | [], _ => by simp [npSqrtList]
  | a :: l, h => by
    have ha : npSqrt a = some (Real.sqrt a) := if_pos (h a (by simp))
    have hl := npSqrtList_of_nonneg l fun t ht => h t (by simp [ht])
    simp [npSqrtList, ha, hl]

theorem getLast_le_of_sorted : ∀ (s : List ℝ), s.Pairwise (· ≥ ·) →
    ∀ (hne : s ≠ []) (x : ℝ), x ∈ s → s.getLast hne ≤ x := by
  intro s
  induction s with
  | nil => intro _ hne; exact absurd rfl hne
  | cons a t ih =>
    intro hsort hne x hx
    cases t with
    | nil =>
      simp only [List.mem_singleton] at hx
      subst hx
      simp [List.getLast]
    | cons b u =>
      rw [List.getLast_cons (by simp : b :: u ≠ [])]
      rcases List.mem_cons.1 hx with rfl | hx2
      · exact (List.pairwise_cons.1 hsort).1 _ (List.getLast_mem _)
      · exact ih (List.pairwise_cons.1 hsort).2 (by simp) x hx2

/-- On a nonempty descending list of nonnegative values (the SVD contract for
singular values) the code's unclamped shrink never sees a negative radicand
and computes `sqrt(s_i² - s[-1]²)` throughout. -/
theorem shrink_eq_of_sorted {s : List ℝ} (hne : s ≠ []) (hsort : s.Pairwise (· ≥ ·))
    (hnn : ∀ x ∈ s, 0 ≤ x) :
    shrink s = some (s.map fun x => Real.sqrt (x ^ 2 - s.getLast hne ^ 2)) := by
  unfold shrink
  rw [List.getLast?_eq_getLast s hne, Option.some_bind]
  have hmem : ∀ t ∈ s.map (fun x => x ^ 2 - s.getLast hne ^ 2), 0 ≤ t := by
    intro t ht
    rcases List.mem_map.1 ht with ⟨x, hx, rfl⟩
    have h1 : s.getLast hne ≤ x := getLast_le_of_sorted s hsort hne x hx
    have h2 : 0 ≤ s.getLast hne := hnn _ (List.getLast_mem hne)
    nlinarith
  rw [npSqrtList_of_nonneg _ hmem, List.map_map]
  rfl

theorem sqrt_max_zero (t : ℝ) : Real.sqrt (max t 0) = Real.sqrt t := by
  rcases le_or_lt 0 t with h | h
  · rw [max_eq_left h]
  · rw [max_eq_right h.le, Real.sqrt_zero]
    exact ((Real.sqrt_eq_zero').2 h.le).symm

/-- Claim C7 (amended): the code's shrink step computes `sqrt(s_i² - delta)`
with NO `max(·, 0)` clamp; because the SVD provider returns the singular
values nonnegative and in descending order, the radicand is never negative on
any reachable input, the operation never fails, and its result coincides with
the spec's clamped formula. -/
theorem shrink_eq_clamped_of_sorted {s : List ℝ} (hne : s ≠ [])
    (hsort : s.Pairwise (· ≥ ·)) (hnn : ∀ x ∈ s, 0 ≤ x) :
    shrink s = some (shrinkClamped s) := by
  rw [shrink_eq_of_sorted hne hsort hnn]
  unfold shrinkClamped
  rw [List.getLast?_eq_getLast s hne]
  congr 1
  refine List.map_congr_left fun x _ => ?_
  rw [Option.getD_some, sqrt_max_zero]

/-- Witness for `shrink_eq_clamped_of_sorted` on the singular value list
`[2, 0]`. -/
theorem shrink_eq_clamped_witness :
    (([(2 : ℝ), 0] : List ℝ) ≠ [] ∧ List.Pairwise (· ≥ ·) [(2 : ℝ), 0] ∧
        ∀ x ∈ [(2 : ℝ), 0], 0 ≤ x) ∧
      shrink [(2 : ℝ), 0] = some (shrinkClamped [(2 : ℝ), 0]) :=
⟨⟨by simp, by norm_num, by norm_num⟩,
  shrink_eq_clamped_of_sorted (by simp) (by norm_num) (by norm_num)⟩

/-- Counterexample to claim C7 as stated: the code has no clamp, so on the
(non-descending) value list `[0, 1]` — where `delta = 1` exceeds `s_0² = 0` —
the shrink step takes the square root of a negative number and fails
(`NaN`), while the spec's clamped formula would return `[0, 0]`. -/
theorem shrink_no_clamp_cex :
    shrink [(0 : ℝ), 1] = none ∧ some (shrinkClamped [(0 : ℝ), 1]) ≠ shrink [(0 : ℝ), 1] := by
  have h : shrink [(0 : ℝ), 1] = none := by
    have hneg : npSqrt (-1 : ℝ) = none := if_neg (by norm_num)
    norm_num [shrink, npSqrtList, hneg]
  exact ⟨h, by rw [h]; simp⟩

/- ### the stored basis and sketch -/

/-- Claim C5: truncating to the first `ell` columns preserves orthonormality,
so whenever the SVD factor `U` satisfies the provider's contract
`Uᵀ·U = I`, the basis stored by `__init__` and by `sketch_update` (both via
the shared truncate-and-shrink pass) has orthonormal columns. -/
theorem truncCols_orthonormal {m k : ℕ} (U : Matrix (Fin m) (Fin k) ℝ) (ell : ℕ)
    (h : U.transpose * U = 1) :
    (truncCols U ell).transpose * truncCols U ell = 1 ∧
      ∀ (s : List ℝ) (sk : Sketch m (min ell k)),
        sketchOfSVD U s ell = some sk → sk.U.transpose * sk.U = 1 := by
  have horth : (truncCols U ell).transpose * truncCols U ell = 1 := by
    ext j j'
    have h2 : ∀ a b, (U.transpose * U) a b = (1 : Matrix (Fin k) (Fin k) ℝ) a b :=
      fun a b => by rw [h]
    have h3 := h2 (Fin.castLE (min_le_right ell k) j) (Fin.castLE (min_le_right ell k) j')
    simp only [Matrix.mul_apply, Matrix.transpose_apply, Matrix.one_apply,
      Fin.castLE_inj] at h3 ⊢
    simpa [truncCols] using h3
  refine ⟨horth, ?_⟩
  intro s sk hsk
  unfold sketchOfSVD at hsk
  rcases Option.map_eq_some'.1 hsk with ⟨sh, _, hmk⟩
  rw [← hmk]
  exact horth

/-- Witness for `truncCols_orthonormal` at the 2×2 identity with `ell = 1`. -/
theorem truncCols_orthonormal_witness :
    ((1 : Matrix (Fin 2) (Fin 2) ℝ).transpose * 1 = 1) ∧
      (truncCols (1 : Matrix (Fin 2) (Fin 2) ℝ) 1).transpose *
        truncCols (1 : Matrix (Fin 2) (Fin 2) ℝ) 1 = 1 :=
⟨by simp, (truncCols_orthonormal (1 : Matrix (Fin 2) (Fin 2) ℝ) 1 (by simp)).1⟩

/-- Claim C6: on any singular value list satisfying the SVD contract (with at
least `ell` values available, i.e. the training matrix has enough columns),
the truncate-and-shrink pass drives the last retained shrunk singular value
to exactly 0, and the stored sketch `B = U·diag(s)` consequently has a
nontrivial kernel — its smallest singular value is 0. -/
theorem sketch_smallest_singular_zero {m k : ℕ} (U : Matrix (Fin m) (Fin k) ℝ)
    (s : List ℝ) (ell : ℕ) (hell : 0 < ell) (hne : s ≠ [])
    (hlen : s.length = k) (hsort : s.Pairwise (· ≥ ·)) (hnn : ∀ x ∈ s, 0 ≤ x) :
    ∃ (sk : Sketch m (min ell k)) (sh : List ℝ),
      sketchOfSVD U s ell = some sk ∧ shrink (s.take ell) = some sh ∧
        sh.getLast? = some 0 ∧
        ∃ x : Fin (min ell k) → ℝ, x ≠ 0 ∧ sk.B.mulVec x = 0 := by
  have hlpos : 0 < (s.take ell).length := by
    rw [List.length_take]
    exact lt_min hell (List.length_pos.2 hne)
  have htne : s.take ell ≠ [] := List.ne_nil_of_length_pos hlpos
  have hsortt : (s.take ell).Pairwise (· ≥ ·) :=
    hsort.sublist (List.take_sublist _ _)
  have hnnt : ∀ x ∈ s.take ell, 0 ≤ x := fun x hx => hnn x (List.mem_of_mem_take hx)
  have hshr := shrink_eq_of_sorted htne hsortt hnnt
  set L := (s.take ell).getLast htne with hL
  set sh := (s.take ell).map fun x => Real.sqrt (x ^ 2 - L ^ 2) with hsh
  have hsk : sketchOfSVD U s ell =
      some ⟨truncCols U ell,
        truncCols U ell * Matrix.diagonal fun j : Fin (min ell k) => sh.getD (j : ℕ) 0⟩ := by
    unfold sketchOfSVD
    rw [hshr]
    rfl
  have hgl : sh.getLast? = some 0 := by
    rw [hsh, List.getLast?_map, List.getLast?_eq_getLast _ htne, Option.map_some']
    simp
  have hNpos : 0 < min ell k := lt_min hell (hlen ▸ List.length_pos.2 hne)
  have hshlen : sh.length = min ell k := by
    rw [hsh, List.length_map, List.length_take, hlen]
  refine ⟨_, sh, hsk, hshr, hgl, ⟨Pi.single ⟨min ell k - 1, by omega⟩ 1, ?_, ?_⟩⟩
  · intro hcontra
    have h1 := congrFun hcontra ⟨min ell k - 1, by omega⟩
    simp only [Pi.single_eq_same, Pi.zero_apply] at h1
    exact one_ne_zero h1
  · have hd : sh.getD (min ell k - 1) 0 = 0 := by
      have hidx : min ell k - 1 < sh.length := by omega
      rw [List.getD_eq_getElem _ _ hidx]
      have hlast := List.getLast?_eq_getLast sh (by
        intro hc
        rw [hc] at hshlen
        simp at hshlen
        omega)
      rw [hlast] at hgl
      have h0 := Option.some_injective _ hgl
      rw [List.getLast_eq_getElem] at h0
      convert h0 using 2
      omega
    show (truncCols U ell *
        Matrix.diagonal fun j : Fin (min ell k) => sh.getD (j : ℕ) 0).mulVec
        (Pi.single ⟨min ell k - 1, by omega⟩ 1) = 0
    rw [← Matrix.mulVec_mulVec, Matrix.diagonal_mulVec_single]
    have : sh.getD ((⟨min ell k - 1, by omega⟩ : Fin (min ell k)) : ℕ) 0 * 1 = 0 := by
      rw [hd]
      ring
    rw [this, Pi.single_zero, Matrix.mulVec_zero]

/-- Witness for `sketch_smallest_singular_zero` on a 1×1 SVD. -/
theorem sketch_smallest_singular_zero_witness :
    ((0 : ℕ) < 1 ∧ ([(1 : ℝ)] : List ℝ) ≠ [] ∧ ([(1 : ℝ)] : List ℝ).length = 1 ∧
        List.Pairwise (· ≥ ·) [(1 : ℝ)] ∧ ∀ x ∈ [(1 : ℝ)], 0 ≤ x) ∧
      ∃ (sk : Sketch 1 (min 1 1)) (sh : List ℝ),
        sketchOfSVD !![(1 : ℝ)] [1] 1 = some sk ∧
          shrink ([(1 : ℝ)].take 1) = some sh ∧ sh.getLast? = some 0 ∧
          ∃ x : Fin (min 1 1) → ℝ, x ≠ 0 ∧ sk.B.mulVec x = 0 :=
⟨⟨by norm_num, by simp, by simp, by simp, by norm_num⟩,
  sketch_smallest_singular_zero !![(1 : ℝ)] [1] 1 (by norm_num) (by simp) (by simp)
    (by simp) (by norm_num)⟩

/- ### initialization and refresh -/

/-- Claim C8 (amended): `__init__` performs NO input validation and raises
neither `DimensionError` nor `ConfigError`: for every criterion string
(recognized or not), every criterion value, and every `ell` — including
`ell > m` and training data with fewer than `ell` columns — construction
succeeds whenever `m ≥ 1` and the SVD returns a nonempty singular value
list; a nonpositive `ell` silently falls back to the default
`int(sqrt(m))`. -/
theorem init_no_validation {m k : ℕ} (U : Matrix (Fin m) (Fin k) ℝ) (s : List ℝ)
    (criterion : String) (criterion_v : ℝ) (ell : ℤ) (hm : 0 < m) (hne : s ≠ [])
    (hsort : s.Pairwise (· ≥ ·)) (hnn : ∀ x ∈ s, 0 ≤ x) :
    (initDetect U s criterion criterion_v ell).isSome = true := by
  have hepos : 0 < effEll ell m := by
    unfold effEll
    split
    · exact Nat.sqrt_pos.2 hm
    · omega
  have hlpos : 0 < (s.take (effEll ell m)).length := by
    rw [List.length_take]
    exact lt_min hepos (List.length_pos.2 hne)
  have htne : s.take (effEll ell m) ≠ [] := List.ne_nil_of_length_pos hlpos
  have hshr := shrink_eq_of_sorted htne (hsort.sublist (List.take_sublist _ _))
    (fun x hx => hnn x (List.mem_of_mem_take hx))
  unfold initDetect sketchOfSVD
  rw [hshr]
  rfl

/-- Witness for `init_no_validation`: an unrecognized criterion string, an
out-of-range criterion value and a negative `ell` are all accepted. -/
theorem init_no_validation_witness :
    ((0 : ℕ) < 1 ∧ ([(1 : ℝ)] : List ℝ) ≠ [] ∧ List.Pairwise (· ≥ ·) [(1 : ℝ)] ∧
        ∀ x ∈ [(1 : ℝ)], 0 ≤ x) ∧
      (initDetect !![(1 : ℝ)] [1] "zzz" 7 (-2)).isSome = true :=
⟨⟨by norm_num, by simp, by simp, by norm_num⟩,
  init_no_validation !![(1 : ℝ)] [1] "zzz" 7 (-2) (by norm_num) (by simp) (by simp)
    (by norm_num)⟩

/-- Counterexample to claim C8 as stated: with `m = 1`, a training matrix of
`1 < ell` columns, `ell = 5 > m`, the unrecognized criterion string `"x"` and
the out-of-range criterion value `-3`, `__init__` still succeeds — it raises
no `DimensionError` and no `ConfigError` and yields a usable state. -/
theorem init_no_validation_cex :
    (initDetect !![(1 : ℝ)] [1] "x" (-3) 5).isSome = true ∧
      (1 : ℕ) < 5 ∧ "x" ≠ "p" ∧ "x" ≠ "th" ∧ ((-3 : ℝ) < 0) := by
  refine ⟨?_, by norm_num, by decide, by decide, by norm_num⟩
  have h5 : ([(1 : ℝ)].take (effEll 5 1)) = [1] := rfl
  have hshr := shrink_eq_of_sorted (s := [(1 : ℝ)]) (by simp) (by simp) (by norm_num)
  unfold initDetect sketchOfSVD
  rw [h5, hshr]
  rfl

/-- Claim C9 (amended): on an empty batch both returned index lists are empty
and `D = hstack(B, Y)` is `B` itself, so the refresh re-derives the sketch
from an SVD of `B`; the resulting state, however, is determined only up to
the non-uniqueness of the SVD and need not equal the previous `U` and `B`
matrix-for-matrix. -/
theorem empty_batch_partition {α : Type*} [LinearOrderedField α] [FloorRing α]
    (c : Crit) (v : α) :
    anomalyIdx c v ([] : List α) = [] ∧ nonAnomalyIdx c v ([] : List α) = [] ∧
      ∀ (m ell : ℕ) (B : Matrix (Fin m) (Fin ell) ℝ) (Y : Matrix (Fin m) (Fin 0) ℝ),
        hstack B Y = B := by
  refine ⟨?_, ?_, ?_⟩
  · cases c <;> simp [anomalyIdx, sortedIdx, sortedPairs, List.enum]
  · cases c <;> simp [nonAnomalyIdx, sortedIdx, sortedPairs, List.enum]
  · intro m ell B Y
    ext i j
    unfold hstack
    rw [dif_pos (show (j : ℕ) < ell from j.isLt)]
    exact congrArg (B i) (Fin.eta j j.isLt)

/-- Counterexample to claim C9 as stated: the state is NOT guaranteed
unchanged by the empty-batch refresh.  For the state `U = [[1]]`,
`B = [[0]]`, the external provider may validly answer the SVD of `D = B`
with `U = [[-1]], s = [0], V = [[-1]]` (it satisfies the full SVD contract),
after which the stored basis is `[[-1]] ≠ [[1]]`. -/
theorem empty_batch_refresh_cex :
    svdValid (hstack ((⟨!![1], !![0]⟩ : Sketch 1 1).B) (0 : Matrix (Fin 1) (Fin 0) ℝ))
        !![(-1 : ℝ)] [0] !![(-1 : ℝ)] ∧
      (sketchUpdate (⟨!![1], !![0]⟩ : Sketch 1 1) (0 : Matrix (Fin 1) (Fin 0) ℝ)
          (fun _ => (!![(-1 : ℝ)], [0]))).map Sketch.U = some !![(-1 : ℝ)] ∧
      (!![(-1 : ℝ)] : Matrix (Fin 1) (Fin 1) ℝ) ≠ (⟨!![1], !![0]⟩ : Sketch 1 1).U := by
  refine ⟨⟨?_, ?_, ?_, by simp, by norm_num, by simp, by simp⟩, ?_, ?_⟩
  · ext i j
    fin_cases i
    fin_cases j
    simp [hstack, Matrix.mul_apply]
  · ext i j
    fin_cases i
    fin_cases j
    simp [Matrix.mul_apply]
  · ext i j
    fin_cases i
    fin_cases j
    simp [Matrix.mul_apply]
  · have hshr := shrink_eq_of_sorted (s := [(0 : ℝ)]) (by simp) (by simp) (by norm_num)
    unfold sketchUpdate sketchOfSVD
    rw [show ([(0 : ℝ)].take 1) = [0] from rfl, hshr]
    have htru : truncCols !![(-1 : ℝ)] 1 = !![(-1 : ℝ)] := by
      ext i j
      fin_cases i
      fin_cases j
      simp [truncCols]
    simp [htru]
  · intro hcontra
    have h1 := congrFun (congrFun hcontra 0) 0
    simp at h1
    norm_num at h1

/- ### the default sketch rank -/

/-- Claim C10 (amended): when `ell` is not supplied (the default `0`) or is
supplied below 1, the sketch rank defaults to `int(sqrt(m))` — the TRUNCATED
square root `Nat.sqrt m = ⌊√m⌋`, not the nearest-integer rounding — and is
fixed at construction. -/
theorem ell_default_floor_sqrt (ell : ℤ) (m : ℕ) (h : ell < 1) :
    effEll ell m = Nat.sqrt m ∧ (Nat.sqrt m : ℤ) = ⌊Real.sqrt (m : ℝ)⌋ :=
⟨if_pos h, Real.floor_real_sqrt_eq_nat_sqrt.symm⟩

/-- Witness for `ell_default_floor_sqrt` at `ell = 0`, `m = 8`. -/
theorem ell_default_floor_sqrt_witness :
    ((0 : ℤ) < 1) ∧ effEll 0 8 = Nat.sqrt 8 ∧
      ((Nat.sqrt 8 : ℤ) = ⌊Real.sqrt ((8 : ℕ) : ℝ)⌋) :=
⟨by norm_num, (ell_default_floor_sqrt 0 8 (by norm_num)).1,
  (ell_default_floor_sqrt 0 8 (by norm_num)).2⟩

/-- Counterexample to claim C10 as stated: for `m = 8` the code's default is
`int(sqrt(8)) = 2`, whereas rounding to the nearest integer would give
`round(sqrt(8)) = 3`. -/
theorem ell_default_not_round_cex :
    effEll 0 8 = 2 ∧ round (Real.sqrt 8) = 3 ∧
      ((effEll 0 8 : ℤ) ≠ round (Real.sqrt 8)) := by
  have h2 : effEll 0 8 = 2 := by
    have hs : Nat.sqrt 8 = 2 := (Nat.eq_sqrt.2 (by norm_num)).symm
    simp [effEll, hs]
  have h3 : round (Real.sqrt 8) = 3 := by
    rw [round_eq, Int.floor_eq_iff]
    constructor
    · have : (5 / 2 : ℝ) ≤ Real.sqrt 8 :=
        (Real.le_sqrt (by norm_num) (by norm_num)).2 (by norm_num)
      push_cast
      linarith
    · have : Real.sqrt 8 < 7 / 2 := (Real.sqrt_lt' (by norm_num)).2 (by norm_num)
      push_cast
      linarith
  refine ⟨h2, h3, ?_⟩
  rw [h2, h3]
  norm_num
